import Mathlib

/-!
Verification of the kanji-furigana annotation service (`app.py`).

Strings are modelled as lists of Unicode code points (`List Nat`), matching
Python's view of `str` as a sequence of code points.  The external
morphological tokenizer (fugashi) is modelled as a capability parameter
`tok : List Nat → List Token`; the kanji grade table (a Python dict keyed by
single-character strings) is modelled as `grade : Nat → Option Int`; the
optional `jaconv` dependency is a Boolean capability flag.
-/

namespace App

/-- Code point of the CR character. -/
def crChar : Nat := 13

/-- Code point of the LF character. -/
def lfChar : Nat := 10

/-- A character is a line-break character iff it is CR or LF. -/
def isBreakChar (c : Nat) : Bool := c = crChar || c = lfChar

/-- A string contains no line-break characters. -/
def noBreak (s : List Nat) : Bool := s.all (fun c => !isBreakChar c)

/-- Embeds `KANJI_CHAR_RE = re.compile(r'[一-鿿]')` applied to a single
character: the CJK ideograph range U+4E00 .. U+9FFF. -/
def isKanji (c : Nat) : Bool := decide (0x4E00 ≤ c) && decide (c ≤ 0x9FFF)

/-- Embeds `KANJI_CHAR_RE.search(surface)`: the string contains some CJK
ideograph. -/
def hasKanji (s : List Nat) : Bool := s.any isKanji

/-- A string contains no CJK ideograph. -/
def noKanji (s : List Nat) : Bool := s.all (fun c => !isKanji c)

/-- A token produced by the external tokenizer: a surface string and an
ordered list of feature fields (`token.surface`, `token.feature`). -/
structure Token where
  surface : List Nat
  feature : List (List Nat)

/-- Embeds `re.fullmatch(r'[゠-ヿ]+', feat)`: non-empty and every
character in the katakana block U+30A0 .. U+30FF. -/
def isFullKatakana (s : List Nat) : Bool :=
  decide (s ≠ []) && s.all (fun c => decide (0x30A0 ≤ c) && decide (c ≤ 0x30FF))

/-- Embeds the reading search of `annotate_by_grade`: scan the feature
fields in reverse order and take the first non-empty all-katakana field. -/
def findReading (feats : List (List Nat)) : Option (List Nat) :=
  feats.reverse.find? (fun f => decide (f ≠ []) && isFullKatakana f)

/-- Models `jaconv.kata2hira` on one character: katakana letters
U+30A1 .. U+30F6 are shifted down by 0x60 into the hiragana block; every
other character is left unchanged. -/
def kata2hiraChar (c : Nat) : Nat :=
  if 0x30A1 ≤ c ∧ c ≤ 0x30F6 then c - 0x60 else c

/-- Models `jaconv.kata2hira` on a string (character-wise translation). -/
def kata2hira (s : List Nat) : List Nat := s.map kata2hiraChar

/-- Embeds `re.match(r'^([一-鿿]+)(.*)$', surface)` followed by the
`kanji_part, rest` assignment of `annotate_by_grade`: if the surface starts
with a kanji, `kanji_part` is the maximal leading kanji run and `rest` the
remainder; otherwise the match fails and the code sets
`kanji_part, rest = surface, ''`.  (The regex model is exact for surfaces
without line-break characters; the tokenizer is only ever fed break-free
chunks.) -/
def kanjiSplit (s : List Nat) : List Nat × List Nat :=
  match s with
  | [] => (s, [])
  | c :: _ => if isKanji c then (s.takeWhile isKanji, s.dropWhile isKanji) else (s, [])

/-- Embeds the reading-split of `annotate_by_grade`:
`reading[:-len(rest)] if len(reading) > len(rest) else reading` when
`rest` is non-empty and `kanji_part` has length 1, else the full reading. -/
def kanjiReadingOf (kanji_part rest reading : List Nat) : List Nat :=
  if rest ≠ [] ∧ kanji_part.length = 1 then
    if reading.length > rest.length then reading.take (reading.length - rest.length)
    else reading
  else reading

/-- Comparison `g < threshold` applied to one looked-up grade.  The `none`
branch is unreachable in `attachOf`: the code only evaluates the `all`
comparison after `any(g is None for g in grades)` has been ruled out
(in Python, `None < int` would raise there). -/
def gradeLt (threshold : Int) : Option Int → Bool
  | some g => decide (g < threshold)
  | none => true

/-- Embeds the gloss-attach decision of `annotate_by_grade`:
`grades = [KANJI_GRADE.get(ch) for ch in kanji_part]`; attach if any grade
is missing; do not attach if all grades are strictly below the threshold;
attach otherwise. -/
def attachOf (grade : Nat → Option Int) (threshold : Int) (kanji_part : List Nat) : Bool :=
  let grades := kanji_part.map grade
  if grades.any (fun g => g.isNone) then true
  else if grades.all (gradeLt threshold) then false
  else true

/-- Code point of the full-width left parenthesis `（`. -/
def lparChar : Nat := 0xFF08

/-- Code point of the full-width right parenthesis `）`. -/
def rparChar : Nat := 0xFF09

/-- Embeds the per-token body of the loop of `annotate_by_grade`: derive the
reading (converted to hiragana when `jaconv` is importable), emit the
surface unchanged when no reading was found or the surface holds no kanji,
otherwise split the surface, align the reading, decide attachment and emit
either the surface or `kanji_part（kanji_reading）rest`. -/
def processToken (grade : Nat → Option Int) (jaconvAvailable : Bool) (threshold : Int)
    (t : Token) : List Nat :=
  match findReading t.feature with
  | none => t.surface
  | some r0 =>
    let reading := if jaconvAvailable then kata2hira r0 else r0
    if reading = [] ∨ hasKanji t.surface = false then t.surface
    else
      let kanji_part := (kanjiSplit t.surface).1
      let rest := (kanjiSplit t.surface).2
      let kanji_reading := kanjiReadingOf kanji_part rest reading
      if attachOf grade threshold kanji_part then
        kanji_part ++ [lparChar] ++ kanji_reading ++ [rparChar] ++ rest
      else t.surface

/-- One piece of the result of `re.split(r'(\r\n|\r|\n)', text)`: either a
captured separator (`brk`, always one of `\r\n`, `\r`, `\n`) or the text
between two separators (`txt`). -/
inductive Chunk : Type where
  | brk (s : List Nat) : Chunk
  | txt (s : List Nat) : Chunk
deriving DecidableEq

/-- The underlying string of a chunk. -/
def chunkStr : Chunk → List Nat
  | .brk s => s
  | .txt s => s

/-- Prepend a character to the leading text chunk of a chunk list (the
recursive step of the splitter on a non-break character). -/
def consTxt (c : Nat) : List Chunk → List Chunk
  | Chunk.txt s :: rest => Chunk.txt (c :: s) :: rest
  | l => Chunk.txt [c] :: l

/-- Embeds `re.split(r'(\r\n|\r|\n)', text)`: alternating text chunks and
captured break chunks, with `\r\n` matched as a single separator before
lone `\r`, and empty text chunks kept between adjacent separators and at
both ends. -/
def splitLineBreaks : List Nat → List Chunk
  | [] => [Chunk.txt []]
  | c :: rest =>
    if c = crChar then
      match rest with
      | c2 :: rest2 =>
        if c2 = lfChar then Chunk.txt [] :: Chunk.brk [crChar, lfChar] :: splitLineBreaks rest2
        else Chunk.txt [] :: Chunk.brk [crChar] :: splitLineBreaks (c2 :: rest2)
      | [] => [Chunk.txt [], Chunk.brk [crChar], Chunk.txt []]
    else if c = lfChar then Chunk.txt [] :: Chunk.brk [lfChar] :: splitLineBreaks rest
    else consTxt c (splitLineBreaks rest)

/-- Concatenation of the strings of a chunk list. -/
def joinChunks (l : List Chunk) : List Nat := (l.map chunkStr).flatten

/-- Embeds the per-chunk body of `annotate_by_grade` for a text chunk:
an empty chunk is appended as-is; a non-empty chunk is tokenized and every
token processed. -/
def processChunk (tok : List Nat → List Token) (grade : Nat → Option Int)
    (jaconvAvailable : Bool) (threshold : Int) (s : List Nat) : List Nat :=
  if s = [] then s
  else ((tok s).map (processToken grade jaconvAvailable threshold)).flatten

/-- Embeds `annotate_by_grade(text, threshold)`: split on line breaks,
pass break chunks through unaltered, process text chunks token by token,
and concatenate everything back in order. -/
def annotate_by_grade (tok : List Nat → List Token) (grade : Nat → Option Int)
    (jaconvAvailable : Bool) (threshold : Int) (text : List Nat) : List Nat :=
  ((splitLineBreaks text).map (fun ch =>
    match ch with
    | Chunk.brk s => s
    | Chunk.txt s => processChunk tok grade jaconvAvailable threshold s)).flatten

/-- The missing-grade test of `attachOf`, characterised pointwise. -/
theorem anyIsNone_iff (grade : Nat → Option Int) (kp : List Nat) :
    ((kp.map grade).any (fun g => g.isNone) = true) ↔ ∃ c ∈ kp, grade c = none := by
  simp [List.any_map, Function.comp, Option.isNone_iff_eq_none]

/-- The all-below-threshold test of `attachOf`, characterised pointwise. -/
theorem allGradeLt_iff (grade : Nat → Option Int) (threshold : Int) (kp : List Nat) :
    ((kp.map grade).all (gradeLt threshold) = true) ↔
      ∀ c ∈ kp, gradeLt threshold (grade c) = true := by
  simp [List.all_map, Function.comp]

/-- The attach decision is `false` exactly when every character of
`kanji_part` has a known grade strictly below the threshold. -/
theorem attachOf_false_iff (grade : Nat → Option Int) (threshold : Int) (kp : List Nat) :
    attachOf grade threshold kp = false ↔
      ∀ c ∈ kp, ∃ v, grade c = some v ∧ v < threshold := by
  unfold attachOf
  by_cases hA : (kp.map grade).any (fun g => g.isNone) = true
  · simp only [hA, if_true]
    rcases (anyIsNone_iff grade kp).mp hA with ⟨c, hc, hnone⟩
    constructor
    · intro h; cases h
    · intro h; rcases h c hc with ⟨v, hv, _⟩; rw [hnone] at hv; cases hv
  · rw [if_neg hA]
    by_cases hB : (kp.map grade).all (gradeLt threshold) = true
    · rw [if_pos hB]
      have hB2 := (allGradeLt_iff grade threshold kp).mp hB
      constructor
      · intro _ c hc
        have h1 := hB2 c hc
        cases hgc : grade c with
        | none =>
          exact absurd ((anyIsNone_iff grade kp).mpr ⟨c, hc, hgc⟩) hA
        | some v =>
          refine ⟨v, rfl, ?_⟩
          rw [hgc] at h1
          simpa [gradeLt] using h1
      · intro _; rfl
    · rw [if_neg hB]
      constructor
      · intro h; cases h
      · intro h
        exfalso
        apply hB
        rw [allGradeLt_iff]
        intro c hc
        rcases h c hc with ⟨v, hv, hlt⟩
        rw [hv]
        simpa [gradeLt] using hlt

/-- If some character of `kanji_part` has no grade, the decision is attach. -/
theorem attachOf_of_unknown (grade : Nat → Option Int) (threshold : Int) (kp : List Nat)
    (h : ∃ c ∈ kp, grade c = none) : attachOf grade threshold kp = true := by
  unfold attachOf
  have hA : (kp.map grade).any (fun g => g.isNone) = true := (anyIsNone_iff grade kp).mpr h
  simp [hA]

/-- C1: for a token with a kanji-bearing surface and a found reading, the
gloss-attach decision of `annotate_by_grade` is: attach if any character of
`kanji_part` is absent from the grade table; do not attach iff every
character has a known grade strictly below the threshold; in particular a
span of uniform known grade `g` is glossed iff `threshold ≤ g` (the
boundary `g = threshold` attaches), and a span containing an untracked
kanji is glossed for every integer threshold. -/
theorem c1_gloss_attach_policy (grade : Nat → Option Int) (threshold : Int)
    (kp : List Nat) (g : Int) :
    (attachOf grade threshold kp = false ↔
      ∀ c ∈ kp, ∃ v, grade c = some v ∧ v < threshold)
    ∧ ((∃ c ∈ kp, grade c = none) → attachOf grade threshold kp = true)
    ∧ (kp ≠ [] → (∀ c ∈ kp, grade c = some g) →
        (attachOf grade threshold kp = true ↔ threshold ≤ g)) := by
  refine ⟨attachOf_false_iff grade threshold kp, attachOf_of_unknown grade threshold kp, ?_⟩
  intro hne huni
  constructor
  · intro htrue
    by_contra hgt
    push_neg at hgt
    have : attachOf grade threshold kp = false := by
      rw [attachOf_false_iff]
      intro c hc
      exact ⟨g, huni c hc, hgt⟩
    rw [this] at htrue
    cases htrue
  · intro hge
    cases hattach : attachOf grade threshold kp with
    | true => rfl
    | false =>
      exfalso
      rcases List.exists_mem_of_ne_nil kp hne with ⟨c0, hc0⟩
      rcases (attachOf_false_iff grade threshold kp).mp hattach c0 hc0 with ⟨v, hv, hlt⟩
      rw [huni c0 hc0] at hv
      injection hv with hv
      omega

/-- A concrete single-kanji grade table used by witnesses. -/
def gradeOne : Nat → Option Int := fun c => if c = 19968 then some 2 else none

/-- Witness for C1: the kanji U+4E00 with known grade 2 is glossed at
threshold 2 (the boundary case attaches). -/
theorem c1_gloss_attach_policy_witness : attachOf gradeOne 2 [19968] = true :=
  ((c1_gloss_attach_policy gradeOne 2 [19968] 2).2.2 (by decide) (by decide)).mpr (by decide)

/-- C6: the reading split for a single-kanji stem with a non-empty suffix
strips exactly `rest.length` characters from the end of the reading when
the reading is strictly longer than the suffix, keeps the whole reading
otherwise, never strips more characters than the reading contains, and
leaves the reading untouched for multi-kanji stems or an empty suffix. -/
theorem c6_reading_split (kanji_part rest reading : List Nat) :
    (kanji_part.length = 1 → rest ≠ [] → reading.length > rest.length →
      kanjiReadingOf kanji_part rest reading ++
          reading.drop (reading.length - rest.length) = reading
      ∧ (reading.drop (reading.length - rest.length)).length = rest.length
      ∧ (kanjiReadingOf kanji_part rest reading).length = reading.length - rest.length)
    ∧ (kanji_part.length = 1 → rest ≠ [] → reading.length ≤ rest.length →
      kanjiReadingOf kanji_part rest reading = reading)
    ∧ ((kanji_part.length ≠ 1 ∨ rest = []) →
      kanjiReadingOf kanji_part rest reading = reading)
    ∧ reading.length - rest.length ≤ (kanjiReadingOf kanji_part rest reading).length
    ∧ (kanjiReadingOf kanji_part rest reading).length ≤ reading.length := by
  refine ⟨?_, ?_, ?_, ?_⟩
  · intro h1 h2 h3
    have hdef : kanjiReadingOf kanji_part rest reading =
        reading.take (reading.length - rest.length) := by
      unfold kanjiReadingOf
      rw [if_pos ⟨h2, h1⟩, if_pos h3]
    refine ⟨?_, ?_, ?_⟩
    · rw [hdef]; exact List.take_append_drop _ _
    · rw [List.length_drop]; omega
    · rw [hdef, List.length_take]; omega
  · intro h1 h2 h3
    unfold kanjiReadingOf
    rw [if_pos ⟨h2, h1⟩, if_neg (by omega)]
  · intro h
    unfold kanjiReadingOf
    rw [if_neg (by tauto)]
  · constructor
    · unfold kanjiReadingOf
      by_cases hc : rest ≠ [] ∧ kanji_part.length = 1
      · rw [if_pos hc]
        by_cases hl : reading.length > rest.length
        · rw [if_pos hl, List.length_take]; omega
        · rw [if_neg hl]; omega
      · rw [if_neg hc]; omega
    · unfold kanjiReadingOf
      by_cases hc : rest ≠ [] ∧ kanji_part.length = 1
      · rw [if_pos hc]
        by_cases hl : reading.length > rest.length
        · rw [if_pos hl, List.length_take]; omega
        · rw [if_neg hl]
      · rw [if_neg hc]

/-- Witness for C6: stem `一` with suffix `a` and the two-character reading
`あい` keeps exactly the first character. -/
theorem c6_reading_split_witness :
    kanjiReadingOf [19968] [97] [12354, 12356] ++
        List.drop (List.length [12354, 12356] - List.length [97]) [12354, 12356] =
      [12354, 12356] :=
  ((c6_reading_split [19968] [97] [12354, 12356]).1 (by decide) (by decide) (by decide)).1

/-- The first element surviving `dropWhile` fails the predicate. -/
theorem dropWhile_head_false (p : Nat → Bool) :
    ∀ (l : List Nat) (c : Nat) (r : List Nat), l.dropWhile p = c :: r → p c = false := by
  intro l
  induction l with
  | nil => intro c r h; cases h
  | cons a t ih =>
    intro c r h
    rw [List.dropWhile_cons] at h
    by_cases hp : p a = true
    · rw [if_pos hp] at h
      exact ih c r h
    · rw [if_neg hp] at h
      injection h with h1 _
      rw [← h1]
      simpa using hp

/-- Unfolding of `processToken` when a reading is found, the converted
reading is non-empty, and the surface contains a kanji. -/
theorem processToken_eq_of_found (grade : Nat → Option Int) (jac : Bool) (threshold : Int)
    (t : Token) (r0 : List Nat) (hfind : findReading t.feature = some r0)
    (hne : (if jac then kata2hira r0 else r0) ≠ [])
    (hhk : hasKanji t.surface = true) :
    processToken grade jac threshold t =
      if attachOf grade threshold (kanjiSplit t.surface).1 then
        (kanjiSplit t.surface).1 ++ [lparChar] ++
          kanjiReadingOf (kanjiSplit t.surface).1 (kanjiSplit t.surface).2
            (if jac then kata2hira r0 else r0) ++ [rparChar] ++ (kanjiSplit t.surface).2
      else t.surface := by
  simp only [processToken, hfind]
  rw [if_neg (by rw [hhk]; push_neg; exact ⟨hne, by simp⟩)]

/-- Unfolding of `processToken` when no reading is found or the surface
contains no kanji: the surface passes through unchanged. -/
theorem processToken_eq_surface (grade : Nat → Option Int) (jac : Bool) (threshold : Int)
    (t : Token) (h : findReading t.feature = none ∨ hasKanji t.surface = false) :
    processToken grade jac threshold t = t.surface := by
  cases hfind : findReading t.feature with
  | none => simp only [processToken, hfind]
  | some r0 =>
    cases h with
    | inl h0 => rw [hfind] at h0; cases h0
    | inr h0 =>
      simp only [processToken, hfind]
      rw [if_pos (Or.inr h0)]

/-- C5 (amended): the kanji/rest split satisfies `kanji_part ++ rest =
surface`; when the surface starts with a kanji, `kanji_part` is the maximal
leading kanji run (all its characters are kanji and `rest` is empty or
starts with a non-kanji character); when the surface starts with a
non-kanji character, `kanji_part` is the whole surface and `rest` is empty,
and — contrary to the original claim — such a token is still glossed
whenever the attach policy over every character of the whole surface says
so (the emitted text is then `surface（reading）`).  The model is stated for
break-free surfaces, the only ones `annotate_by_grade` feeds the split. -/
theorem c5_kanji_split_amended (s : List Nat) (hnb : noBreak s = true) :
    (kanjiSplit s).1 ++ (kanjiSplit s).2 = s
    ∧ (∀ c rest, s = c :: rest → isKanji c = true →
        (kanjiSplit s).1.all isKanji = true
        ∧ ((kanjiSplit s).2 = [] ∨
            ∃ c2 r2, (kanjiSplit s).2 = c2 :: r2 ∧ isKanji c2 = false))
    ∧ (∀ c rest, s = c :: rest → isKanji c = false → kanjiSplit s = (s, []))
    ∧ (∀ (grade : Nat → Option Int) (threshold : Int) (jac : Bool) (t : Token)
        (r0 : List Nat), t.surface = s → findReading t.feature = some r0 →
        (if jac then kata2hira r0 else r0) ≠ [] → hasKanji s = true →
        (∀ c rest, s = c :: rest → isKanji c = false →
          processToken grade jac threshold t =
            if attachOf grade threshold s then
              s ++ [lparChar] ++ (if jac then kata2hira r0 else r0) ++ [rparChar]
            else s)) := by
  refine ⟨?_, ?_, ?_, ?_⟩
  · cases s with
    | nil => rfl
    | cons c r =>
      simp only [kanjiSplit]
      by_cases hk : isKanji c = true
      · rw [if_pos hk]
        exact List.takeWhile_append_dropWhile isKanji (c :: r)
      · rw [if_neg hk]
        simp
  · intro c rest hs hk
    subst hs
    simp only [kanjiSplit]
    rw [if_pos hk]
    refine ⟨List.all_takeWhile, ?_⟩
    cases hd : (c :: rest).dropWhile isKanji with
    | nil => exact Or.inl rfl
    | cons c2 r2 =>
      exact Or.inr ⟨c2, r2, rfl, dropWhile_head_false isKanji (c :: rest) c2 r2 hd⟩
  · intro c rest hs hk
    subst hs
    simp only [kanjiSplit]
    rw [if_neg (by simp [hk])]
  · intro grade threshold jac t r0 hsurf hfind hre hhk c rest hs hk
    have hsplit : kanjiSplit s = (s, []) := by
      rw [hs]
      simp only [kanjiSplit]
      rw [if_neg (by simp [hk])]
    rw [processToken_eq_of_found grade jac threshold t r0 hfind hre
        (by rw [hsurf]; exact hhk), hsurf, hsplit]
    have hkr : kanjiReadingOf s [] (if jac then kata2hira r0 else r0) =
        (if jac then kata2hira r0 else r0) := by
      unfold kanjiReadingOf
      rw [if_neg (by simp)]
    simp only [hkr]
    by_cases hat : attachOf grade threshold s = true
    · rw [if_pos hat, if_pos hat]
      simp
    · rw [if_neg hat, if_neg hat]

/-- The everywhere-empty grade table. -/
def gradeEmpty : Nat → Option Int := fun _ => none

/-- A concrete token with surface `お金` (leading hiragana, then a kanji)
and the katakana reading `オカネ` among its features. -/
def tokenOKane : Token := ⟨[12362, 37329], [[12458, 12459, 12493]]⟩

/-- Counterexample to C5 as stated: the surface `お金` starts with a
non-kanji character, yet the token is glossed — `processToken` emits
`お金（オカネ）`, not the unchanged surface. -/
theorem c5_nonkanji_glossed_counterexample :
    tokenOKane.surface = 12362 :: [37329]
    ∧ isKanji 12362 = false
    ∧ hasKanji tokenOKane.surface = true
    ∧ processToken gradeEmpty false 1 tokenOKane ≠ tokenOKane.surface
    ∧ processToken gradeEmpty false 1 tokenOKane =
        [12362, 37329, 65288, 12458, 12459, 12493, 65289] := by decide

/-- Witness for C5 (amended) at the concrete surface `お金`. -/
theorem c5_kanji_split_amended_witness :
    (kanjiSplit [12362, 37329]).1 ++ (kanjiSplit [12362, 37329]).2 = [12362, 37329] :=
  (c5_kanji_split_amended [12362, 37329] (by decide)).1

/-- Unfolding of `joinChunks` on a cons cell. -/
theorem joinChunks_cons (a : Chunk) (l : List Chunk) :
    joinChunks (a :: l) = chunkStr a ++ joinChunks l := rfl

/-- Prepending a character through `consTxt` prepends it to the join. -/
theorem joinChunks_consTxt (c : Nat) (l : List Chunk) :
    joinChunks (consTxt c l) = c :: joinChunks l := by
  cases l with
  | nil => rfl
  | cons hd tl =>
    cases hd with
    | txt s => rfl
    | brk s => rfl

/-- Unfolding of `splitLineBreaks` on the empty string. -/
theorem splitLineBreaks_nil : splitLineBreaks [] = [Chunk.txt []] := rfl

/-- Unfolding of `splitLineBreaks` on a leading CRLF pair. -/
theorem splitLineBreaks_crlf (r : List Nat) :
    splitLineBreaks (crChar :: lfChar :: r) =
      Chunk.txt [] :: Chunk.brk [crChar, lfChar] :: splitLineBreaks r := rfl

/-- Unfolding of `splitLineBreaks` on a lone CR followed by a non-LF
character. -/
theorem splitLineBreaks_cr (c2 : Nat) (r : List Nat) (h : ¬c2 = lfChar) :
    splitLineBreaks (crChar :: c2 :: r) =
      Chunk.txt [] :: Chunk.brk [crChar] :: splitLineBreaks (c2 :: r) := by
  simp only [splitLineBreaks]
  rw [if_pos trivial, if_neg h]

/-- Unfolding of `splitLineBreaks` on a trailing CR. -/
theorem splitLineBreaks_cr_end :
    splitLineBreaks [crChar] = [Chunk.txt [], Chunk.brk [crChar], Chunk.txt []] := rfl

/-- Unfolding of `splitLineBreaks` on a leading LF. -/
theorem splitLineBreaks_lf (r : List Nat) :
    splitLineBreaks (lfChar :: r) =
      Chunk.txt [] :: Chunk.brk [lfChar] :: splitLineBreaks r := by
  cases r with
  | nil => rfl
  | cons a t => rfl

/-- Unfolding of `splitLineBreaks` on a leading non-break character. -/
theorem splitLineBreaks_other (c : Nat) (r : List Nat) (h1 : ¬c = crChar)
    (h2 : ¬c = lfChar) :
    splitLineBreaks (c :: r) = consTxt c (splitLineBreaks r) := by
  cases r with
  | nil =>
    simp only [splitLineBreaks]
    rw [if_neg h1, if_neg h2]
  | cons a t =>
    simp only [splitLineBreaks]
    rw [if_neg h1, if_neg h2]

/-- The chunks of `splitLineBreaks` concatenate back to the input. -/
theorem splitLineBreaks_join (s : List Nat) : joinChunks (splitLineBreaks s) = s := by
  induction s using splitLineBreaks.induct with
  | case1 => rfl
  | case2 rest2 ih =>
    rw [splitLineBreaks_crlf, joinChunks_cons, joinChunks_cons, ih]
    rfl
  | case3 c2 rest2 hc2 ih =>
    rw [splitLineBreaks_cr c2 rest2 hc2, joinChunks_cons, joinChunks_cons, ih]
    rfl
  | case4 => rfl
  | case5 tail hlf ih =>
    rw [splitLineBreaks_lf, joinChunks_cons, joinChunks_cons, ih]
    rfl
  | case6 c tail hc hc2 ih =>
    rw [splitLineBreaks_other c tail hc hc2, joinChunks_consTxt, ih]

/-- Membership of a text chunk in `consTxt c l`, unpacked. -/
theorem mem_consTxt_txt (c : Nat) (l : List Chunk) (t : List Nat)
    (h : Chunk.txt t ∈ consTxt c l) :
    (∃ t2, t = c :: t2 ∧ (Chunk.txt t2 ∈ l ∨ t2 = [])) ∨ Chunk.txt t ∈ l := by
  cases l with
  | nil =>
    simp [consTxt] at h
    exact Or.inl ⟨[], by simp [h]⟩
  | cons hd tl =>
    cases hd with
    | txt s2 =>
      simp only [consTxt, List.mem_cons] at h
      rcases h with h | h
      · injection h with h
        exact Or.inl ⟨s2, h, Or.inl (List.mem_cons_self _ _)⟩
      · exact Or.inr (List.mem_cons_of_mem _ h)
    | brk s2 =>
      simp only [consTxt, List.mem_cons] at h
      rcases h with h | h
      · injection h with h
        exact Or.inl ⟨[], by simp [h]⟩
      · rcases h with h | h
        · cases h
        · exact Or.inr (by simp [h])

/-- Every text chunk produced by `splitLineBreaks` is break-free. -/
theorem splitLineBreaks_txt_noBreak (s : List Nat) :
    ∀ t, Chunk.txt t ∈ splitLineBreaks s → noBreak t = true := by
  induction s using splitLineBreaks.induct with
  | case1 =>
    intro t ht
    rw [splitLineBreaks_nil, List.mem_singleton] at ht
    injection ht with ht
    subst ht
    rfl
  | case2 rest2 ih =>
    intro t ht
    rw [splitLineBreaks_crlf, List.mem_cons, List.mem_cons] at ht
    rcases ht with ht | ht | ht
    · injection ht with ht; subst ht; rfl
    · cases ht
    · exact ih t ht
  | case3 c2 rest2 hc2 ih =>
    intro t ht
    rw [splitLineBreaks_cr c2 rest2 hc2, List.mem_cons, List.mem_cons] at ht
    rcases ht with ht | ht | ht
    · injection ht with ht; subst ht; rfl
    · cases ht
    · exact ih t ht
  | case4 =>
    intro t ht
    rw [splitLineBreaks_cr_end, List.mem_cons, List.mem_cons, List.mem_singleton] at ht
    rcases ht with ht | ht | ht
    · injection ht with ht; subst ht; rfl
    · cases ht
    · injection ht with ht; subst ht; rfl
  | case5 tail hlf ih =>
    intro t ht
    rw [splitLineBreaks_lf, List.mem_cons, List.mem_cons] at ht
    rcases ht with ht | ht | ht
    · injection ht with ht; subst ht; rfl
    · cases ht
    · exact ih t ht
  | case6 c tail hc hc2 ih =>
    intro t ht
    rw [splitLineBreaks_other c tail hc hc2] at ht
    rcases mem_consTxt_txt c (splitLineBreaks tail) t ht with ⟨t2, ht2, hmem⟩ | hmem
    · have hnb2 : noBreak t2 = true := by
        rcases hmem with hmem | hmem
        · exact ih t2 hmem
        · rw [hmem]; rfl
      rw [ht2]
      simp only [noBreak, List.all_cons, Bool.and_eq_true]
      refine ⟨?_, hnb2⟩
      simp [isBreakChar, hc, hc2]
    · exact ih t hmem

/-- Pointwise characterisation of `all` over a flattened list of lists. -/
theorem all_flatten_iff (p : Nat → Bool) (L : List (List Nat)) :
    (L.flatten.all p = true) ↔ ∀ x ∈ L, x.all p = true := by
  induction L with
  | nil => simp
  | cons a t ih => simp [List.all_append, ih]

/-- Filtering commutes with flattening. -/
theorem filter_flatten_eq (p : Nat → Bool) (L : List (List Nat)) :
    L.flatten.filter p = (L.map (fun x => x.filter p)).flatten := by
  induction L with
  | nil => rfl
  | cons a t ih => simp [List.filter_append, ih]

/-- Break-freeness distributes over append. -/
theorem noBreak_append (a b : List Nat) :
    noBreak (a ++ b) = (noBreak a && noBreak b) := by
  simp [noBreak, List.all_append]

/-- A prefix taken from a break-free string is break-free. -/
theorem noBreak_take (n : Nat) (s : List Nat) (h : noBreak s = true) :
    noBreak (s.take n) = true := by
  rw [← List.take_append_drop n s, noBreak_append, Bool.and_eq_true] at h
  exact h.1

/-- Both halves of the kanji split of a break-free surface are break-free. -/
theorem kanjiSplit_noBreak (s : List Nat) (h : noBreak s = true) :
    noBreak (kanjiSplit s).1 = true ∧ noBreak (kanjiSplit s).2 = true := by
  cases s with
  | nil => exact ⟨rfl, rfl⟩
  | cons c r =>
    simp only [kanjiSplit]
    by_cases hk : isKanji c = true
    · rw [if_pos hk]
      have h2 := h
      rw [← List.takeWhile_append_dropWhile isKanji (c :: r), noBreak_append,
        Bool.and_eq_true] at h2
      exact h2
    · rw [if_neg hk]
      exact ⟨h, rfl⟩

/-- The (possibly hiragana-converted) form of an all-katakana reading is
break-free. -/
theorem noBreak_of_katakana (r0 : List Nat) (h : isFullKatakana r0 = true) (jac : Bool) :
    noBreak (if jac then kata2hira r0 else r0) = true := by
  have hall : ∀ c ∈ r0, 0x30A0 ≤ c ∧ c ≤ 0x30FF := by
    rw [isFullKatakana, Bool.and_eq_true] at h
    have h2 := h.2
    rw [List.all_eq_true] at h2
    intro c hc
    have h3 := h2 c hc
    rw [Bool.and_eq_true, decide_eq_true_iff, decide_eq_true_iff] at h3
    exact h3
  have hnb : ∀ c, 0x30A0 ≤ c → c ≤ 0x30FF →
      (!isBreakChar (kata2hiraChar c)) = true ∧ (!isBreakChar c) = true := by
    intro c h1 h2
    constructor
    · unfold kata2hiraChar
      by_cases hr : 0x30A1 ≤ c ∧ c ≤ 0x30F6
      · rw [if_pos hr]
        simp only [isBreakChar, crChar, lfChar, Bool.not_eq_true']
        simp only [Bool.or_eq_false_iff, decide_eq_false_iff_not]
        omega
      · rw [if_neg hr]
        simp only [isBreakChar, crChar, lfChar, Bool.not_eq_true']
        simp only [Bool.or_eq_false_iff, decide_eq_false_iff_not]
        omega
    · simp only [isBreakChar, crChar, lfChar, Bool.not_eq_true']
      simp only [Bool.or_eq_false_iff, decide_eq_false_iff_not]
      omega
  cases jac with
  | true =>
    simp only [if_true]
    simp only [noBreak, kata2hira, List.all_map, List.all_eq_true, Function.comp_apply]
    intro c hc
    exact (hnb c (hall c hc).1 (hall c hc).2).1
  | false =>
    simp only [Bool.false_eq_true, if_false]
    simp only [noBreak, List.all_eq_true]
    intro c hc
    exact (hnb c (hall c hc).1 (hall c hc).2).2

/-- Processing a token with a break-free surface yields break-free text. -/
theorem processToken_noBreak (grade : Nat → Option Int) (jac : Bool) (threshold : Int)
    (t : Token) (hs : noBreak t.surface = true) :
    noBreak (processToken grade jac threshold t) = true := by
  cases hfind : findReading t.feature with
  | none =>
    rw [processToken_eq_surface grade jac threshold t (Or.inl hfind)]
    exact hs
  | some r0 =>
    have hfind2 := hfind
    unfold findReading at hfind2
    have hpred := List.find?_some hfind2
    simp only [Bool.and_eq_true, decide_eq_true_iff] at hpred
    by_cases hhk : hasKanji t.surface = true
    · have hne : (if jac then kata2hira r0 else r0) ≠ [] := by
        cases jac with
        | true =>
          simp only [if_true, kata2hira]
          simp only [ne_eq, List.map_eq_nil_iff]
          exact hpred.1
        | false =>
          simpa using hpred.1
      rw [processToken_eq_of_found grade jac threshold t r0 hfind hne hhk]
      by_cases hat : attachOf grade threshold (kanjiSplit t.surface).1 = true
      · rw [if_pos hat]
        have hsp := kanjiSplit_noBreak t.surface hs
        have hrd := noBreak_of_katakana r0 hpred.2 jac
        have hkr : noBreak (kanjiReadingOf (kanjiSplit t.surface).1 (kanjiSplit t.surface).2
            (if jac then kata2hira r0 else r0)) = true := by
          unfold kanjiReadingOf
          by_cases hc : (kanjiSplit t.surface).2 ≠ [] ∧ (kanjiSplit t.surface).1.length = 1
          · rw [if_pos hc]
            by_cases hl : (if jac then kata2hira r0 else r0).length >
                (kanjiSplit t.surface).2.length
            · rw [if_pos hl]
              exact noBreak_take _ _ hrd
            · rw [if_neg hl]
              exact hrd
          · rw [if_neg hc]
            exact hrd
        simp only [noBreak_append, Bool.and_eq_true]
        exact ⟨⟨⟨⟨hsp.1, by decide⟩, hkr⟩, by decide⟩, hsp.2⟩
      · rw [if_neg hat]
        exact hs
    · rw [processToken_eq_surface grade jac threshold t (Or.inr (by simpa using hhk))]
      exact hs

/-- C2: for every input text and threshold, provided the tokenizer's token
surfaces concatenate back to each (break-free) chunk it is given, the
sequence of line-break characters in `annotate_by_grade text threshold` is
identical, in content and relative order, to that of `text`; moreover
tokenization is applied only to break-free text chunks — every text chunk
produced by the splitter is break-free, and break chunks pass through. -/
theorem c2_line_breaks_preserved (tok : List Nat → List Token) (grade : Nat → Option Int)
    (jac : Bool) (threshold : Int) (text : List Nat)
    (htok : ∀ c, noBreak c = true → ((tok c).map Token.surface).flatten = c) :
    (annotate_by_grade tok grade jac threshold text).filter isBreakChar =
        text.filter isBreakChar
    ∧ (∀ t, Chunk.txt t ∈ splitLineBreaks text → noBreak t = true) := by
  refine ⟨?_, splitLineBreaks_txt_noBreak text⟩
  conv_rhs => rw [← splitLineBreaks_join text]
  unfold annotate_by_grade joinChunks
  rw [filter_flatten_eq, filter_flatten_eq, List.map_map, List.map_map]
  congr 1
  apply List.map_congr_left
  intro ch hch
  cases ch with
  | brk s => rfl
  | txt s =>
    simp only [Function.comp_apply, chunkStr]
    have hnb := splitLineBreaks_txt_noBreak text s hch
    have hout : noBreak (processChunk tok grade jac threshold s) = true := by
      unfold processChunk
      by_cases hse : s = []
      · rw [if_pos hse]
        exact hnb
      · rw [if_neg hse]
        simp only [noBreak] at hnb ⊢
        rw [all_flatten_iff]
        intro x hx
        rw [List.mem_map] at hx
        obtain ⟨t, ht, rfl⟩ := hx
        apply processToken_noBreak
        have hjoin := htok s (by simpa [noBreak] using hnb)
        have hy : ∀ y ∈ (tok s).map Token.surface, y.all (fun c => !isBreakChar c) = true := by
          rw [← all_flatten_iff, hjoin]
          exact hnb
        exact hy t.surface (List.mem_map_of_mem _ ht)
    have h1 : (processChunk tok grade jac threshold s).filter isBreakChar = [] := by
      rw [List.filter_eq_nil_iff]
      intro a ha
      simp only [noBreak, List.all_eq_true] at hout
      simpa using hout a ha
    have h2 : s.filter isBreakChar = [] := by
      rw [List.filter_eq_nil_iff]
      intro a ha
      simp only [noBreak, List.all_eq_true] at hnb
      simpa using hnb a ha
    rw [h1, h2]

/-- C10: under the hypothesis that the tokenizer's token surfaces
concatenate in order to each break-free chunk, `annotate_by_grade` is the
identity on any text containing no CJK ideograph; in particular it maps the
empty string to the empty string for every threshold. -/
theorem c10_no_kanji_identity (tok : List Nat → List Token) (grade : Nat → Option Int)
    (jac : Bool) (threshold : Int) (text : List Nat)
    (htok : ∀ c, noBreak c = true → ((tok c).map Token.surface).flatten = c) :
    annotate_by_grade tok grade jac threshold [] = []
    ∧ (noKanji text = true → annotate_by_grade tok grade jac threshold text = text) := by
  constructor
  · rfl
  · intro hnk
    conv_rhs => rw [← splitLineBreaks_join text]
    unfold annotate_by_grade joinChunks
    congr 1
    apply List.map_congr_left
    intro ch hch
    cases ch with
    | brk s => rfl
    | txt s =>
      simp only [chunkStr]
      have hnks : noKanji s = true := by
        have hxs : noKanji (joinChunks (splitLineBreaks text)) = true := by
          rw [splitLineBreaks_join text]
          exact hnk
        unfold joinChunks at hxs
        simp only [noKanji] at hxs ⊢
        rw [all_flatten_iff] at hxs
        exact hxs s (List.mem_map_of_mem chunkStr hch)
      unfold processChunk
      by_cases hse : s = []
      · rw [if_pos hse]
      · rw [if_neg hse]
        have hnb := splitLineBreaks_txt_noBreak text s hch
        have hjoin := htok s hnb
        have hsurfs : ∀ y ∈ (tok s).map Token.surface, noKanji y = true := by
          intro y hy
          have hfl : noKanji (((tok s).map Token.surface).flatten) = true := by
            rw [hjoin]
            exact hnks
          simp only [noKanji] at hfl ⊢
          rw [all_flatten_iff] at hfl
          exact hfl y hy
        have hmap : (tok s).map (processToken grade jac threshold) =
            (tok s).map Token.surface := by
          apply List.map_congr_left
          intro t ht
          apply processToken_eq_surface
          right
          have hk := hsurfs t.surface (List.mem_map_of_mem _ ht)
          simp only [noKanji, List.all_eq_true] at hk
          rw [hasKanji, List.any_eq_false]
          intro c hc
          simpa using hk c hc
        rw [hmap, hjoin]

/-- A trivial tokenizer emitting the whole chunk as one featureless token;
used only to instantiate witnesses. -/
def tokId : List Nat → List Token := fun s => [⟨s, []⟩]

/-- Witness for C2 at the concrete text `a\nb`. -/
theorem c2_line_breaks_preserved_witness :
    ((annotate_by_grade tokId gradeEmpty false 1 [97, 10, 98]).filter isBreakChar =
        List.filter isBreakChar [97, 10, 98])
    ∧ (∀ t, Chunk.txt t ∈ splitLineBreaks [97, 10, 98] → noBreak t = true) :=
  c2_line_breaks_preserved tokId gradeEmpty false 1 [97, 10, 98]
    (fun c _ => by simp [tokId])

/-- Witness for C10 at the concrete kanji-free text `a`. -/
theorem c10_no_kanji_identity_witness :
    annotate_by_grade tokId gradeEmpty false 1 [97] = [97] :=
  (c10_no_kanji_identity tokId gradeEmpty false 1 [97]
    (fun c _ => by simp [tokId])).2 (by decide)

/-- Python-dict insertion (`parts[name] = data`): overwrite the value in
place when the key is present, append otherwise. -/
def dictInsert {κ α : Type} [DecidableEq κ] (k : κ) (v : α) :
    List (κ × α) → List (κ × α)
  | [] => [(k, v)]
  | (k2, v2) :: rest => if k2 = k then (k, v) :: rest else (k2, v2) :: dictInsert k v rest

/-- Python-dict lookup (`parts.get(name)`). -/
def dictGet {κ α : Type} [DecidableEq κ] (k : κ) : List (κ × α) → Option α
  | [] => none
  | (k2, v) :: rest => if k2 = k then some v else dictGet k rest

/-- Looking up the key just inserted yields the inserted value. -/
theorem dictGet_insert_self {κ α : Type} [DecidableEq κ] (k : κ) (v : α)
    (m : List (κ × α)) : dictGet k (dictInsert k v m) = some v := by
  induction m with
  | nil => simp [dictInsert, dictGet]
  | cons hd tl ih =>
    obtain ⟨k2, v2⟩ := hd
    simp only [dictInsert]
    by_cases h : k2 = k
    · rw [if_pos h]
      simp [dictGet]
    · rw [if_neg h]
      simp only [dictGet]
      rw [if_neg h]
      exact ih

/-- Looking up any other key is unaffected by an insertion. -/
theorem dictGet_insert_ne {κ α : Type} [DecidableEq κ] (k k2 : κ) (v : α)
    (m : List (κ × α)) (h : k2 ≠ k) :
    dictGet k2 (dictInsert k v m) = dictGet k2 m := by
  induction m with
  | nil =>
    simp only [dictInsert, dictGet]
    rw [if_neg (fun e => h e.symm)]
  | cons hd tl ih =>
    obtain ⟨k3, v3⟩ := hd
    simp only [dictInsert]
    by_cases h3 : k3 = k
    · rw [if_pos h3]
      simp only [dictGet]
      rw [if_neg (fun e => h e.symm), if_neg (fun e => h (h3 ▸ e).symm)]
    · rw [if_neg h3]
      simp only [dictGet]
      by_cases h4 : k3 = k2
      · rw [if_pos h4, if_pos h4]
      · rw [if_neg h4, if_neg h4]
        exact ih

/-- Embeds `make_docm_from_xml_bytes(new_document_xml)`: read every part of
`template.docm` into a name-to-bytes dict (`{name: zin.read(name) for name
in zin.namelist()}`), overwrite the `word/document.xml` entry with the given
bytes, and write all parts into the output container.  The template
argument is `none` when the resource file is missing, in which case the
`FileNotFoundError` raised by `zipfile.ZipFile(template_path, 'r')`
propagates to the caller uncaught. -/
def make_docm_from_xml_bytes (template : Option (List (String × List Nat)))
    (new_document_xml : List Nat) : Except String (List (String × List Nat)) :=
  match template with
  | none => Except.error "FileNotFoundError: template.docm"
  | some parts => Except.ok (dictInsert "word/document.xml" new_document_xml parts)

/-- The document-content part of a build result (`none` when the build
failed). -/
def contentPartOf (r : Except String (List (String × List Nat))) : Option (List Nat) :=
  match r with
  | .ok parts => dictGet "word/document.xml" parts
  | .error _ => none

/-- C4: for every template container and content bytes, every named part of
the output other than `word/document.xml` is byte-identical to the
template's corresponding part, and the document-content part is exactly the
supplied bytes. -/
theorem c4_container_preservation (tmpl : List (String × List Nat)) (x : List Nat)
    (name : String) (h : name ≠ "word/document.xml") :
    make_docm_from_xml_bytes (some tmpl) x =
        Except.ok (dictInsert "word/document.xml" x tmpl)
    ∧ dictGet name (dictInsert "word/document.xml" x tmpl) = dictGet name tmpl
    ∧ dictGet "word/document.xml" (dictInsert "word/document.xml" x tmpl) = some x :=
  ⟨rfl, dictGet_insert_ne "word/document.xml" name x tmpl h,
    dictGet_insert_self "word/document.xml" x tmpl⟩

/-- A two-part demo template container: an empty content part and a macro
part. -/
def tmplDemo : List (String × List Nat) :=
  [("word/document.xml", []), ("word/vbaProject.bin", [1, 2, 3])]

/-- Witness for C4: the macro part of the demo template survives the build
byte-identically. -/
theorem c4_container_preservation_witness :
    dictGet "word/vbaProject.bin" (dictInsert "word/document.xml" [7] tmplDemo) =
      dictGet "word/vbaProject.bin" tmplDemo :=
  (c4_container_preservation tmplDemo [7] "word/vbaProject.bin" (by decide)).2.1

/-- The content part of a successful build is the supplied bytes. -/
theorem build_content_eq (tmpl : List (String × List Nat)) (x : List Nat) :
    contentPartOf (make_docm_from_xml_bytes (some tmpl) x) = some x := by
  simp only [make_docm_from_xml_bytes, contentPartOf]
  exact dictGet_insert_self "word/document.xml" x tmpl

/-- C3 (amended): `make_docm_from_xml_bytes` substitutes the supplied
content into the container verbatim and performs no markup post-processing
pass at all: the output's document-content part equals the input content
byte-for-byte, so no font-size property is ever added to a ruby element. -/
theorem c3_content_passthrough (tmpl : List (String × List Nat)) (x : List Nat) :
    contentPartOf (make_docm_from_xml_bytes (some tmpl) x) = some x :=
  build_content_eq tmpl x

/-- Modelled from the spec: the byte pattern `w:ruby` marking a ruby markup
element inside serialized document-content markup. -/
def specRubyMarker : List Nat := [119, 58, 114, 117, 98, 121]

/-- Modelled from the spec: the byte pattern `w:sz` that any explicit
font-size property in serialized document-content markup must contain. -/
def specSizeMarker : List Nat := [119, 58, 115, 122]

/-- Contiguous-substring test on byte strings. -/
def containsBytes (pat : List Nat) : List Nat → Bool
  | [] => decide (pat = [])
  | c :: rest => decide (pat = (c :: rest).take pat.length) || containsBytes pat rest

/-- The serialized markup `<w:ruby/>` — a ruby element carrying no size
property — as a byte string. -/
def rubyNoSizeXml : List Nat := [60, 119, 58, 114, 117, 98, 121, 47, 62]

/-- Counterexample to C3 as stated: `make_docm_from_xml_bytes` performs no
post-processing pass.  For content consisting of a ruby element with no
size property, the output content part is byte-identical to the input and
contains no size markup anywhere, so the ruby element does not carry an
explicit 18-half-point size after the operation. -/
theorem c3_ruby_size_counterexample :
    contentPartOf (make_docm_from_xml_bytes (some tmplDemo) rubyNoSizeXml) =
        some rubyNoSizeXml
    ∧ containsBytes specRubyMarker rubyNoSizeXml = true
    ∧ containsBytes specSizeMarker rubyNoSizeXml = false := by decide

/-- C7 (amended): a missing template resource is surfaced to the caller as
an error and no artifact is produced; but a template that merely lacks a
`word/document.xml` part does not fail — contrary to the original claim,
the content part is created by the assignment and an artifact is
produced. -/
theorem c7_template_errors_amended (x : List Nat) (tmpl : List (String × List Nat)) :
    (∃ e, make_docm_from_xml_bytes none x = Except.error e)
    ∧ (dictGet "word/document.xml" tmpl = none →
        make_docm_from_xml_bytes (some tmpl) x =
            Except.ok (dictInsert "word/document.xml" x tmpl)
          ∧ contentPartOf (make_docm_from_xml_bytes (some tmpl) x) = some x) :=
  ⟨⟨"FileNotFoundError: template.docm", rfl⟩,
    fun _ => ⟨rfl, build_content_eq tmpl x⟩⟩

/-- A template container lacking the document-content part. -/
def tmplNoContent : List (String × List Nat) := [("word/vbaProject.bin", [1, 2, 3])]

/-- Counterexample to C7 as stated: with a template lacking a content part,
the build does not fail — it produces an artifact in which the content part
has been added with the supplied bytes. -/
theorem c7_missing_content_part_counterexample :
    dictGet "word/document.xml" tmplNoContent = (none : Option (List Nat))
    ∧ contentPartOf (make_docm_from_xml_bytes (some tmplNoContent) [5]) = some [5] := by
  decide

/-- Witness for C7 (amended) at a concrete content-part-free template. -/
theorem c7_template_errors_amended_witness :
    make_docm_from_xml_bytes (some tmplNoContent) [5] =
        Except.ok (dictInsert "word/document.xml" [5] tmplNoContent)
    ∧ contentPartOf (make_docm_from_xml_bytes (some tmplNoContent) [5]) = some [5] :=
  (c7_template_errors_amended [5] tmplNoContent).2 (by decide)

/-- ASCII whitespace, as stripped by Python `str.strip()` (the model covers
the ASCII whitespace characters; exotic Unicode whitespace is outside it). -/
def isPySpace (c : Nat) : Bool :=
  c = 32 || c = 9 || c = 10 || c = 11 || c = 12 || c = 13

/-- Models Python `str.strip()`: drop whitespace from both ends. -/
def pyStrip (s : List Nat) : List Nat :=
  ((s.dropWhile isPySpace).reverse.dropWhile isPySpace).reverse

/-- ASCII decimal digit test. -/
def isAsciiDigit (c : Nat) : Bool := decide (48 ≤ c) && decide (c ≤ 57)

/-- The numeric value of a non-empty all-digit string, `none` otherwise. -/
def parseDigits (s : List Nat) : Option Nat :=
  if s ≠ [] ∧ s.all isAsciiDigit then
    some (s.foldl (fun a c => a * 10 + (c - 48)) 0)
  else none

/-- Models the Python builtin `int()` in base 10 on ASCII input: surrounding
whitespace is ignored, an optional single leading sign is allowed, and the
remainder must be a non-empty digit string; every other input raises
`ValueError`, modelled as `none`.  (Underscore grouping and non-ASCII
digits are outside the model.) -/
def pyInt (s : List Nat) : Option Int :=
  match pyStrip s with
  | 43 :: rest => (parseDigits rest).map (fun n => (n : Int))
  | 45 :: rest => (parseDigits rest).map (fun n => -(n : Int))
  | t => (parseDigits t).map (fun n => (n : Int))

/-- The per-row body of the loop of `load_kanji_grade_mapping`: skip rows
with fewer than two columns, strip the key, parse the grade with `int()`
(a `ValueError` skips the row), and keep the entry only when the key is
non-empty and the grade lies in `[1, 9]`. -/
def rowEntry (row : List (List Nat)) : Option (List Nat × Int) :=
  match row with
  | f0 :: f1 :: _ =>
    let kanji := pyStrip f0
    match pyInt f1 with
    | none => none
    | some grade =>
      if kanji ≠ [] ∧ 1 ≤ grade ∧ grade ≤ 9 then some (kanji, grade) else none
  | _ => none

/-- Embeds `load_kanji_grade_mapping(csv_path)`: fold the accepted rows into
a dict (`mapping[kanji] = grade`).  The source is `none` when the CSV file
is missing, in which case the `FileNotFoundError` is caught before the loop
runs and the empty mapping is returned with a warning. -/
def load_kanji_grade_mapping (src : Option (List (List (List Nat)))) :
    List (List Nat × Int) :=
  match src with
  | none => []
  | some rows =>
    rows.foldl
      (fun m row =>
        match rowEntry row with
        | some kv => dictInsert kv.1 kv.2 m
        | none => m) []

/-- The grade of the last well-formed row carrying the given key, scanning
the rows from the end. -/
def lastEntry (k : List Nat) : List (List (List Nat)) → Option Int
  | [] => none
  | row :: rest =>
    match lastEntry k rest with
    | some g => some g
    | none =>
      match rowEntry row with
      | some kv => if kv.1 = k then some kv.2 else none
      | none => none

/-- Folding the rows from an arbitrary accumulator looks up like the last
well-formed row, falling back to the accumulator. -/
theorem load_foldl_get (k : List Nat) (rows : List (List (List Nat)))
    (m : List (List Nat × Int)) :
    dictGet k (rows.foldl
        (fun m row =>
          match rowEntry row with
          | some kv => dictInsert kv.1 kv.2 m
          | none => m) m) =
      match lastEntry k rows with
      | some g => some g
      | none => dictGet k m := by
  induction rows generalizing m with
  | nil => simp [lastEntry]
  | cons row rest ih =>
    rw [List.foldl_cons, ih]
    simp only [lastEntry]
    cases hrest : lastEntry k rest with
    | some g => rfl
    | none =>
      cases hrow : rowEntry row with
      | none => rfl
      | some kv =>
        dsimp only
        by_cases hk : kv.1 = k
        · rw [if_pos hk]
          rw [← hk]
          exact dictGet_insert_self kv.1 kv.2 m
        · rw [if_neg hk]
          exact dictGet_insert_ne kv.1 k kv.2 m (fun e => hk e.symm)

/-- C9: the grade table contains exactly the well-formed rows — a lookup
returns the grade of the last well-formed row with that key; every accepted
entry has a non-empty key and a grade in `[1, 9]`; appending a malformed
row (too few columns, unparsable grade, out-of-range grade, or empty key)
leaves the mapping unchanged; and a missing source file yields the empty
mapping instead of raising. -/
theorem c9_grade_table_loading :
    load_kanji_grade_mapping none = []
    ∧ (∀ rows k, dictGet k (load_kanji_grade_mapping (some rows)) = lastEntry k rows)
    ∧ (∀ rows row, rowEntry row = none →
        load_kanji_grade_mapping (some (rows ++ [row])) =
          load_kanji_grade_mapping (some rows))
    ∧ (∀ row k g, rowEntry row = some (k, g) → k ≠ [] ∧ 1 ≤ g ∧ g ≤ 9) := by
  refine ⟨rfl, ?_, ?_, ?_⟩
  · intro rows k
    unfold load_kanji_grade_mapping
    rw [load_foldl_get]
    cases lastEntry k rows with
    | some g => rfl
    | none => rfl
  · intro rows row hrow
    unfold load_kanji_grade_mapping
    dsimp only
    rw [List.foldl_append, List.foldl_cons, List.foldl_nil, hrow]
  · intro row k g hrow
    unfold rowEntry at hrow
    cases row with
    | nil => cases hrow
    | cons f0 rest0 =>
      cases rest0 with
      | nil => cases hrow
      | cons f1 rest1 =>
        simp only at hrow
        cases hint : pyInt f1 with
        | none => rw [hint] at hrow; cases hrow
        | some grade =>
          rw [hint] at hrow
          dsimp only at hrow
          by_cases hc : pyStrip f0 ≠ [] ∧ 1 ≤ grade ∧ grade ≤ 9
          · rw [if_pos hc] at hrow
            injection hrow with hrow
            rw [Prod.mk.injEq] at hrow
            obtain ⟨h1, h2⟩ := hrow
            subst h1
            subst h2
            exact hc
          · rw [if_neg hc] at hrow
            cases hrow

/-- A well-formed CSV row: key `一`, grade text `1`. -/
def rowGood : List (List Nat) := [[19968], [49]]

/-- A malformed CSV row with a single column. -/
def rowBad : List (List Nat) := [[19969]]

/-- Witness for C9: appending a one-column row leaves the loaded mapping
unchanged, concretely. -/
theorem c9_grade_table_loading_witness :
    load_kanji_grade_mapping (some ([rowGood] ++ [rowBad])) =
      load_kanji_grade_mapping (some [rowGood]) :=
  c9_grade_table_loading.2.2.1 [rowGood] rowBad (by decide)

/-- A text run: its text and opaque run-level formatting properties. -/
structure Run where
  text : List Nat
  props : Nat

/-- A paragraph: its runs and opaque paragraph-level properties. -/
structure Para where
  runs : List Run
  props : Nat

mutual
/-- A table: opaque table-level properties and its rows. -/
inductive Table : Type where
  | mk (props : Nat) (rows : List TableRow) : Table
/-- A table row: its cells. -/
inductive TableRow : Type where
  | mk (cells : List TableCell) : TableRow
/-- A table cell: its paragraphs and any nested tables. -/
inductive TableCell : Type where
  | mk (paragraphs : List Para) (tables : List Table) : TableCell
end

/-- A parsed document: body paragraphs and top-level tables. -/
structure DocxDocument where
  paragraphs : List Para
  tables : List Table

/-- The run update of `annotate_docx_inplace`: `if run.text: run.text =
annotate_by_grade(run.text, threshold)` — non-empty text is replaced,
empty runs are skipped. -/
def annotateRun (A : List Nat → List Nat) (r : Run) : Run :=
  if r.text ≠ [] then { r with text := A r.text } else r

/-- The per-paragraph run loop of `annotate_docx_inplace`. -/
def annotatePara (A : List Nat → List Nat) (p : Para) : Para :=
  { p with runs := p.runs.map (annotateRun A) }

mutual
/-- One table of the `walk_tables` recursion of `annotate_docx_inplace`. -/
def walkTable (A : List Nat → List Nat) : Table → Table
  | .mk props rows => .mk props (walkRowList A rows)
/-- The row loop of `walk_tables`. -/
def walkRowList (A : List Nat → List Nat) : List TableRow → List TableRow
  | [] => []
  | r :: rs => walkRow A r :: walkRowList A rs
/-- One row of `walk_tables`. -/
def walkRow (A : List Nat → List Nat) : TableRow → TableRow
  | .mk cells => .mk (walkCellList A cells)
/-- The cell loop of `walk_tables`. -/
def walkCellList (A : List Nat → List Nat) : List TableCell → List TableCell
  | [] => []
  | c :: cs => walkCell A c :: walkCellList A cs
/-- One cell of `walk_tables`: annotate every paragraph, then recurse into
nested tables when present (`if cell.tables: walk_tables(cell.tables)`). -/
def walkCell (A : List Nat → List Nat) : TableCell → TableCell
  | .mk paras tables =>
    .mk (paras.map (annotatePara A))
      (if tables.isEmpty then tables else walkTableList A tables)
/-- The table loop `walk_tables(tables)`. -/
def walkTableList (A : List Nat → List Nat) : List Table → List Table
  | [] => []
  | t :: ts => walkTable A t :: walkTableList A ts
end

/-- Embeds `annotate_docx_inplace(doc, threshold)` (functionally, the
mutation expressed as a transformation): annotate the runs of every body
paragraph, then `walk_tables(doc.tables)`. -/
def annotate_docx_inplace (tok : List Nat → List Token) (grade : Nat → Option Int)
    (jaconvAvailable : Bool) (threshold : Int) (d : DocxDocument) : DocxDocument :=
  { paragraphs :=
      d.paragraphs.map (annotatePara (annotate_by_grade tok grade jaconvAvailable threshold)),
    tables := walkTableList (annotate_by_grade tok grade jaconvAvailable threshold) d.tables }

/-- Map an arbitrary run transformation over every run of a paragraph. -/
def mapRunsPara (f : Run → Run) (p : Para) : Para := { p with runs := p.runs.map f }

mutual
/-- Map a run transformation over every run of a table. -/
def mapRunsTable (f : Run → Run) : Table → Table
  | .mk props rows => .mk props (mapRunsRowList f rows)
/-- Map a run transformation over a list of rows. -/
def mapRunsRowList (f : Run → Run) : List TableRow → List TableRow
  | [] => []
  | r :: rs => mapRunsRow f r :: mapRunsRowList f rs
/-- Map a run transformation over every run of a row. -/
def mapRunsRow (f : Run → Run) : TableRow → TableRow
  | .mk cells => .mk (mapRunsCellList f cells)
/-- Map a run transformation over a list of cells. -/
def mapRunsCellList (f : Run → Run) : List TableCell → List TableCell
  | [] => []
  | c :: cs => mapRunsCell f c :: mapRunsCellList f cs
/-- Map a run transformation over every run of a cell, nested tables
included. -/
def mapRunsCell (f : Run → Run) : TableCell → TableCell
  | .mk paras tables => .mk (paras.map (mapRunsPara f)) (mapRunsTableList f tables)
/-- Map a run transformation over a list of tables. -/
def mapRunsTableList (f : Run → Run) : List Table → List Table
  | [] => []
  | t :: ts => mapRunsTable f t :: mapRunsTableList f ts
end

/-- Map a run transformation over every run of a document. -/
def mapRunsDoc (f : Run → Run) (d : DocxDocument) : DocxDocument :=
  { paragraphs := d.paragraphs.map (mapRunsPara f),
    tables := mapRunsTableList f d.tables }

/-- The texts of a paragraph's runs, in order. -/
def textsPara (p : Para) : List (List Nat) := p.runs.map Run.text

/-- The texts of the runs of a list of paragraphs, in order. -/
def textsParaList (l : List Para) : List (List Nat) := (l.map textsPara).flatten

mutual
/-- All run texts inside a table, in traversal order. -/
def textsTable : Table → List (List Nat)
  | .mk _ rows => textsRowList rows
/-- All run texts inside a list of rows. -/
def textsRowList : List TableRow → List (List Nat)
  | [] => []
  | r :: rs => textsRow r ++ textsRowList rs
/-- All run texts inside a row. -/
def textsRow : TableRow → List (List Nat)
  | .mk cells => textsCellList cells
/-- All run texts inside a list of cells. -/
def textsCellList : List TableCell → List (List Nat)
  | [] => []
  | c :: cs => textsCell c ++ textsCellList cs
/-- All run texts inside a cell, nested tables included. -/
def textsCell : TableCell → List (List Nat)
  | .mk paras tables => textsParaList paras ++ textsTableList tables
/-- All run texts inside a list of tables. -/
def textsTableList : List Table → List (List Nat)
  | [] => []
  | t :: ts => textsTable t ++ textsTableList ts
end

/-- All run texts of a document, in traversal order. -/
def textsDoc (d : DocxDocument) : List (List Nat) :=
  textsParaList d.paragraphs ++ textsTableList d.tables

/-- Erase a run's text, keeping its formatting properties. -/
def eraseRunText (r : Run) : Run := { r with text := [] }

/-- The text substitution applied by the walker to one run text: annotate
when non-empty, skip when empty. -/
def annotTextFn (A : List Nat → List Nat) (t : List Nat) : List Nat :=
  if t ≠ [] then A t else t

/-- Annotating a run changes only its text field. -/
theorem annotateRun_erase (A : List Nat → List Nat) (r : Run) :
    eraseRunText (annotateRun A r) = eraseRunText r := by
  unfold annotateRun
  by_cases h : r.text ≠ []
  · rw [if_pos h]
    rfl
  · rw [if_neg h]

/-- The text of an annotated run follows the skip-empty substitution. -/
theorem annotateRun_text (A : List Nat → List Nat) (r : Run) :
    (annotateRun A r).text = annotTextFn A r.text := by
  unfold annotateRun annotTextFn
  by_cases h : r.text ≠ []
  · rw [if_pos h, if_pos h]
  · rw [if_neg h, if_neg h]

/-- Annotating a paragraph changes only run texts. -/
theorem annotatePara_erase (A : List Nat → List Nat) (p : Para) :
    mapRunsPara eraseRunText (annotatePara A p) = mapRunsPara eraseRunText p := by
  unfold mapRunsPara annotatePara
  simp only [List.map_map]
  congr 1
  apply List.map_congr_left
  intro r _
  exact annotateRun_erase A r

/-- Mapping distributes over a flattened list of lists. -/
theorem map_flatten_eq {α β : Type} (f : α → β) (L : List (List α)) :
    L.flatten.map f = (L.map (fun x => x.map f)).flatten := by
  induction L with
  | nil => rfl
  | cons a t ih => simp [ih]

/-- The run texts of annotated paragraphs are the annotated run texts. -/
theorem textsParaList_annotate (A : List Nat → List Nat) (l : List Para) :
    textsParaList (l.map (annotatePara A)) = (textsParaList l).map (annotTextFn A) := by
  unfold textsParaList
  rw [map_flatten_eq, List.map_map, List.map_map]
  congr 1
  apply List.map_congr_left
  intro p _
  simp only [Function.comp_apply]
  unfold textsPara annotatePara
  simp only [List.map_map]
  apply List.map_congr_left
  intro r _
  exact annotateRun_text A r

mutual
/-- Walking a table changes only run texts. -/
theorem walk_erase_table (A : List Nat → List Nat) : (t : Table) →
    mapRunsTable eraseRunText (walkTable A t) = mapRunsTable eraseRunText t
  | .mk props rows => by
    simp only [walkTable, mapRunsTable]
    rw [walk_erase_rowList A rows]
/-- Walking rows changes only run texts. -/
theorem walk_erase_rowList (A : List Nat → List Nat) : (l : List TableRow) →
    mapRunsRowList eraseRunText (walkRowList A l) = mapRunsRowList eraseRunText l
  | [] => rfl
  | r :: rs => by
    simp only [walkRowList, mapRunsRowList]
    rw [walk_erase_row A r, walk_erase_rowList A rs]
/-- Walking a row changes only run texts. -/
theorem walk_erase_row (A : List Nat → List Nat) : (r : TableRow) →
    mapRunsRow eraseRunText (walkRow A r) = mapRunsRow eraseRunText r
  | .mk cells => by
    simp only [walkRow, mapRunsRow]
    rw [walk_erase_cellList A cells]
/-- Walking cells changes only run texts. -/
theorem walk_erase_cellList (A : List Nat → List Nat) : (l : List TableCell) →
    mapRunsCellList eraseRunText (walkCellList A l) = mapRunsCellList eraseRunText l
  | [] => rfl
  | c :: cs => by
    simp only [walkCellList, mapRunsCellList]
    rw [walk_erase_cell A c, walk_erase_cellList A cs]
/-- Walking a cell changes only run texts. -/
theorem walk_erase_cell (A : List Nat → List Nat) : (c : TableCell) →
    mapRunsCell eraseRunText (walkCell A c) = mapRunsCell eraseRunText c
  | .mk paras tables => by
    simp only [walkCell, mapRunsCell]
    congr 1
    · simp only [List.map_map]
      apply List.map_congr_left
      intro p _
      exact annotatePara_erase A p
    · cases tables with
      | nil => rfl
      | cons t ts =>
        simp only [List.isEmpty_cons, if_neg]
        rw [if_neg (by simp)]
        exact walk_erase_tableList A (t :: ts)
/-- Walking tables changes only run texts. -/
theorem walk_erase_tableList (A : List Nat → List Nat) : (l : List Table) →
    mapRunsTableList eraseRunText (walkTableList A l) = mapRunsTableList eraseRunText l
  | [] => rfl
  | t :: ts => by
    simp only [walkTableList, mapRunsTableList]
    rw [walk_erase_table A t, walk_erase_tableList A ts]
end

mutual
/-- The run texts of a walked table are the annotated run texts. -/
theorem walk_texts_table (A : List Nat → List Nat) : (t : Table) →
    textsTable (walkTable A t) = (textsTable t).map (annotTextFn A)
  | .mk props rows => by
    simp only [walkTable, textsTable]
    exact walk_texts_rowList A rows
/-- The run texts of walked rows are the annotated run texts. -/
theorem walk_texts_rowList (A : List Nat → List Nat) : (l : List TableRow) →
    textsRowList (walkRowList A l) = (textsRowList l).map (annotTextFn A)
  | [] => rfl
  | r :: rs => by
    simp only [walkRowList, textsRowList, List.map_append]
    rw [walk_texts_row A r, walk_texts_rowList A rs]
/-- The run texts of a walked row are the annotated run texts. -/
theorem walk_texts_row (A : List Nat → List Nat) : (r : TableRow) →
    textsRow (walkRow A r) = (textsRow r).map (annotTextFn A)
  | .mk cells => by
    simp only [walkRow, textsRow]
    exact walk_texts_cellList A cells
/-- The run texts of walked cells are the annotated run texts. -/
theorem walk_texts_cellList (A : List Nat → List Nat) : (l : List TableCell) →
    textsCellList (walkCellList A l) = (textsCellList l).map (annotTextFn A)
  | [] => rfl
  | c :: cs => by
    simp only [walkCellList, textsCellList, List.map_append]
    rw [walk_texts_cell A c, walk_texts_cellList A cs]
/-- The run texts of a walked cell are the annotated run texts. -/
theorem walk_texts_cell (A : List Nat → List Nat) : (c : TableCell) →
    textsCell (walkCell A c) = (textsCell c).map (annotTextFn A)
  | .mk paras tables => by
    simp only [walkCell, textsCell, List.map_append]
    congr 1
    · exact textsParaList_annotate A paras
    · cases tables with
      | nil => rfl
      | cons t ts =>
        rw [if_neg (by simp)]
        exact walk_texts_tableList A (t :: ts)
/-- The run texts of walked tables are the annotated run texts. -/
theorem walk_texts_tableList (A : List Nat → List Nat) : (l : List Table) →
    textsTableList (walkTableList A l) = (textsTableList l).map (annotTextFn A)
  | [] => rfl
  | t :: ts => by
    simp only [walkTableList, textsTableList, List.map_append]
    rw [walk_texts_table A t, walk_texts_tableList A ts]
end

/-- C8: the document walker replaces, for every paragraph of the body and
recursively for every paragraph of every cell of every table (nested
tables included), the text of every non-empty run with
`annotate_by_grade(run.text, threshold)`, skips empty runs, and modifies
nothing else — erasing all run texts on both sides yields identical
documents, so run formatting, paragraph structure, table structure and
row/column layout are untouched; a document with zero tables is handled
(its table list stays empty). -/
theorem c8_docx_walker (tok : List Nat → List Token) (grade : Nat → Option Int)
    (jac : Bool) (threshold : Int) (d : DocxDocument) :
    mapRunsDoc eraseRunText (annotate_docx_inplace tok grade jac threshold d) =
        mapRunsDoc eraseRunText d
    ∧ textsDoc (annotate_docx_inplace tok grade jac threshold d) =
        (textsDoc d).map (annotTextFn (annotate_by_grade tok grade jac threshold))
    ∧ (∀ ps : List Para,
        (annotate_docx_inplace tok grade jac threshold ⟨ps, []⟩).tables = []) := by
  refine ⟨?_, ?_, ?_⟩
  · unfold mapRunsDoc annotate_docx_inplace
    simp only [List.map_map]
    congr 1
    · apply List.map_congr_left
      intro p _
      exact annotatePara_erase (annotate_by_grade tok grade jac threshold) p
    · exact walk_erase_tableList (annotate_by_grade tok grade jac threshold) d.tables
  · unfold textsDoc annotate_docx_inplace
    rw [List.map_append]
    congr 1
    · exact textsParaList_annotate (annotate_by_grade tok grade jac threshold) d.paragraphs
    · exact walk_texts_tableList (annotate_by_grade tok grade jac threshold) d.tables
  · intro ps
    rfl

end App
